import Mathlib

/-!
Verification of the Visa interchange pipeline
(`interchange-standar-2.0`): a shallow embedding of the record framer
(`visa/transform.py`), the field cleaner (`visa/clean.py`), the ARDEF
resolver and jurisdiction classifier (`visa/calculate.py`), the
interchange rule engine (`visa/interchange.py`) and the plaintext reader
(`persistence/files.py`), together with proofs of the specification's
invariants about them.

Conventions of the embedding:
* pandas rows become Lean lists; row order is list order.
* Python `int`/`float` cells become `Int`/`Rat`; `NaN`/`NaT`/null become
  `Option.none`; machine dates are day numbers (`Int`).
* A Python exception that aborts a stage is `Option.none` / `Except.error`
  at the stage's result type.
-/

namespace Itx

/-- Python `int(s)`: an optional sign followed by at least one decimal
digit (whitespace has already been removed by the callers' `.replace(" ","")`
normalisation).  Returns `none` where Python raises `ValueError`. -/
def pyInt (s : String) : Option Int :=
  let core (ds : List Char) : Option Int :=
    if ds = [] ∨ ¬ ds.all Char.isDigit then none
    else some (ds.foldl (fun a c => a * 10 + (c.toNat - '0'.toNat : Int)) 0)
  match s.data with
  | '-' :: ds => (core ds).map (fun n => -n)
  | '+' :: ds => core ds
  | ds => core ds

/-- Python `float(s)` restricted to the plain decimal forms that occur in
rule cells: optional sign, digits, optional fractional part.  Returns
`none` where Python raises `ValueError`. -/
def pyFloat (s : String) : Option Rat :=
  let digitsVal (ds : List Char) : Int :=
    ds.foldl (fun a c => a * 10 + (c.toNat - '0'.toNat : Int)) 0
  let core (ds : List Char) : Option Rat :=
    let intPart := ds.takeWhile (fun c => c ≠ '.')
    let rest := ds.dropWhile (fun c => c ≠ '.')
    let fracPart := rest.drop 1
    if ¬ intPart.all Char.isDigit ∨ ¬ fracPart.all Char.isDigit then none
    else if intPart = [] ∧ fracPart = [] then none
    else if rest ≠ [] ∧ (rest.drop 1).contains '.' then none
    else some ((digitsVal intPart : Rat) +
      (digitsVal fracPart : Rat) / ((10 : Rat) ^ fracPart.length))
  match s.data with
  | '-' :: ds => (core ds).map (fun q => -q)
  | '+' :: ds => core ds
  | ds => core ds

/-- Does `pat` occur as a prefix-at-some-position of `l`?  (Python's
`pat in s` substring test over the character list.) -/
def listHasInfix (pat : List Char) : List Char → Bool
  | [] => pat.isEmpty
  | l@(_ :: rest) => pat.isPrefixOf l || listHasInfix pat rest

/-- Python `pat in s` substring test. -/
def hasSubstr (s pat : String) : Bool :=
  listHasInfix pat.data s.data

/-- Replace every non-overlapping occurrence of `pat` by `rep`, left to
right (Python `str.replace`); the fuel is the input length. -/
def replaceFuel (pat rep : List Char) : Nat → List Char → List Char
  | _, [] => []
  | 0, l => l
  | fuel + 1, l@(c :: rest) =>
    if pat ≠ [] ∧ pat.isPrefixOf l then
      rep ++ replaceFuel pat rep fuel (l.drop pat.length)
    else c :: replaceFuel pat rep fuel rest

/-- Python `s.replace(pat, rep)`. -/
def pyReplace (s pat rep : String) : String :=
  ⟨replaceFuel pat.data rep.data s.data.length s.data⟩

/-- Python `s.upper()` (ASCII). -/
def pyUpper (s : String) : String :=
  ⟨s.data.map Char.toUpper⟩

/-- Split at the first occurrence of `pat` (Python `s.split(pat, maxsplit=1)`
when it yields two parts); `none` when `pat` does not occur. -/
def splitOnceAux (pat : List Char) : List Char → Option (List Char × List Char)
  | [] => if pat.isEmpty then some ([], []) else none
  | l@(c :: rest) =>
    if pat ≠ [] ∧ pat.isPrefixOf l then some ([], l.drop pat.length)
    else (splitOnceAux pat rest).map (fun pr => (c :: pr.1, pr.2))

/-- Python `s.split(pat, maxsplit=1)` as an optional pair of strings. -/
def splitOnce (s pat : String) : Option (String × String) :=
  (splitOnceAux pat.data s.data).map (fun pr => (⟨pr.1⟩, ⟨pr.2⟩))

/-- Split on every occurrence of the character `c`
(Python `s.split(c)`; the empty string yields `[""]`). -/
def splitCharAux (c : Char) : List Char → List Char → List (List Char)
  | [], acc => [acc.reverse]
  | x :: rest, acc =>
    if x = c then acc.reverse :: splitCharAux c rest []
    else splitCharAux c rest (x :: acc)

/-- Python `s.split(c)` for a one-character separator. -/
def splitChar (s : String) (c : Char) : List String :=
  (splitCharAux c s.data []).map (fun l => ⟨l⟩)

/-- Python `str.zfill(6)`: left-pad with `'0'` to six characters. -/
def zfill6 (s : String) : String :=
  ⟨List.replicate (6 - s.length) '0' ++ s.data⟩

/-- Python `str.strip()`: drop leading and trailing whitespace. -/
def pyStrip (s : String) : String :=
  ⟨((s.data.dropWhile Char.isWhitespace).reverse.dropWhile Char.isWhitespace).reverse⟩

/-- Python / pandas `s[a:b]` character slice (`str.slice(start=a, stop=b)`). -/
def strSlice (s : String) (a b : Nat) : String :=
  ⟨(s.data.drop a).take (b - a)⟩

/-- Python `s[a:]` character slice (`str.slice(start=a)`). -/
def strSliceFrom (s : String) (a : Nat) : String :=
  ⟨s.data.drop a⟩

/-! ## Record framer (`visa/transform.py`) -/

/-- `FileStorage.read_plaintext` (`persistence/files.py`): split the file on
newlines and keep the non-empty lines; an `OSError` while resolving or
opening the file is caught, logged, and an **empty** line frame returned. -/
def readPlaintext (raw : Except String String) : List String :=
  match raw with
  | .error _ => []
  | .ok content => (content.splitOn "\n").filter (fun l => l ≠ "")

/-- `_load_as_ctf`: inspect the first line's length; 168 ⇒ unchanged,
170 ⇒ strip offsets 2–4 from every line, other ⇒ log and return an empty
series.  `records.iloc[0, 0]` raises `IndexError` on an empty frame,
modelled as `none`. -/
def loadAsCtf (records : List String) : Option (List String) :=
  match records with
  | [] => none
  | header :: _ =>
    if header.length = 168 then some records
    else if header.length = 170 then
      some (records.map (fun l => strSlice l 0 2 ++ strSliceFrom l 4))
    else some []

/-- Draft transaction-code allow-list (`VALID_TC`). -/
def VALID_TC : List String := ["05", "06", "07", "25", "26", "27"]

/-- Draft sub-record sequence allow-list (`VALID_TCSN`). -/
def VALID_TCSN : List String := ["0", "1", "2", "3", "4", "5", "6", "7"]

/-- Line selection of `transform_baseii_drafts`: leading two characters in
`VALID_TC` and the character at offset 3 in `VALID_TCSN`. -/
def selectDrafts (ctf : List String) : List String :=
  ctf.filter (fun l =>
    VALID_TC.contains (strSlice l 0 2) && VALID_TCSN.contains (strSlice l 3 4))

/-- Helper for `groupPairsLe`: extend the current (reversed) group `cur`
whose most recent key is `prev`; a new group opens whenever the next key
is `≤ prev` — this is `(values_df["key"] <= values_df["key"].shift(1)).cumsum()`
of `_pivot_values_on_key`. -/
def groupLeAux {α : Type} (prev : Int) (cur : List (Int × α)) :
    List (Int × α) → List (List (Int × α))
  | [] => [cur.reverse]
  | q :: rest =>
    if q.1 ≤ prev then cur.reverse :: groupLeAux q.1 [q] rest
    else groupLeAux q.1 (q :: cur) rest

/-- Grouping of keyed lines into records by the `≤`-rule of
`_pivot_values_on_key` (`visa/transform.py`). -/
def groupPairsLe {α : Type} : List (Int × α) → List (List (Int × α))
  | [] => []
  | p :: rest => groupLeAux p.1 [p] rest

/-- Helper for `groupPairsLt`, the strictly-less grouping. -/
def groupLtAux {α : Type} (prev : Int) (cur : List (Int × α)) :
    List (Int × α) → List (List (Int × α))
  | [] => [cur.reverse]
  | q :: rest =>
    if q.1 < prev then cur.reverse :: groupLtAux q.1 [q] rest
    else groupLtAux q.1 (q :: cur) rest

/-- The strictly-less grouping contract: a new transaction opens exactly
when the observed sequence number is strictly less than the previous one.
This is the `tcsn < tcsn.shift(1)` variant of
`transformers.transform_baseii_drafts` and §4.1 of the specification;
`transform.py` (the framer the draft pipeline runs) uses `≤` instead. -/
def groupPairsLt {α : Type} : List (Int × α) → List (List (Int × α))
  | [] => []
  | p :: rest => groupLtAux p.1 [p] rest

/-- `_pivot_values_on_key`: parse the key slice of every line
(`astype(int)`, raising on a non-integer — `none`), group lines into
records by the `≤`-rule, and pivot each record on its key
(`DataFrame.pivot` raises on a duplicate `(record, key)` pair — `none`). -/
def pivotValuesOnKey (a b : Nat) (lines : List String) :
    Option (List (List (Int × String))) :=
  match lines.mapM (fun l => (pyInt (strSlice l a b)).map (fun k => (k, l))) with
  | none => none
  | some pairs =>
    let groups := groupPairsLe pairs
    if groups.all (fun g => (g.map Prod.fst).Nodup) then some groups else none

/-- The `transform_baseii_drafts` stage over the raw read result: read the
landing file (I/O failure gives an empty frame), normalise to CTF, select
draft lines, and pivot them into per-transaction records.  An uncaught
exception is `Except.error`; `Except.ok` is the artifact handed to
`write_parquet`. -/
def transformBaseiiDrafts (raw : Except String String) :
    Except String (List (List (Int × String))) :=
  match loadAsCtf (readPlaintext raw) with
  | none => .error "IndexError: single positional indexer is out-of-bounds"
  | some ctf =>
    match pivotValuesOnKey 3 4 (selectDrafts ctf) with
    | none => .error "ValueError"
    | some groups => .ok groups

/-- The per-pair key ordering used to state that sequence keys strictly
increase inside one framed transaction. -/
def keyLt {α : Type} (p q : Int × α) : Prop := p.1 < q.1

theorem chain_groupLeAux {α : Type} :
    ∀ (l : List (Int × α)) (prev : Int) (cur : List (Int × α)),
      List.Chain' keyLt cur.reverse → (∀ c ∈ cur.head?, c.1 = prev) →
      ∀ g ∈ groupLeAux prev cur l, List.Chain' keyLt g := by
  intro l
  induction l with
  | nil =>
    intro prev cur hchain _ g hg
    simp only [groupLeAux, List.mem_singleton] at hg
    exact hg ▸ hchain
  | cons q rest ih =>
    intro prev cur hchain hhead g hg
    simp only [groupLeAux] at hg
    by_cases hle : q.1 ≤ prev
    · simp only [if_pos hle, List.mem_cons] at hg
      rcases hg with hg | hg
      · exact hg ▸ hchain
      · refine ih q.1 [q] (by simp) (by simp) g hg
    · simp only [if_neg hle] at hg
      refine ih q.1 (q :: cur) ?_ (by simp) g hg
      have hrev : (q :: cur).reverse = cur.reverse ++ [q] := by simp
      rw [hrev, List.chain'_append]
      refine ⟨hchain, List.chain'_singleton q, ?_⟩
      intro x hx y hy
      rw [List.getLast?_reverse] at hx
      have hx' := hhead x hx
      simp only [List.head?_cons, Option.mem_def, Option.some.injEq] at hy
      subst hy
      have hlt : prev < q.1 := lt_of_not_le hle
      simpa [keyLt, hx'] using hlt

/-- Inside every record produced by the `≤`-grouping, the keys are
strictly increasing. -/
theorem chain_groupPairsLe {α : Type} (l : List (Int × α)) :
    ∀ g ∈ groupPairsLe l, List.Chain' keyLt g := by
  cases l with
  | nil => intro g hg; simp [groupPairsLe] at hg
  | cons p rest =>
    exact chain_groupLeAux rest p.1 [p] (by simp) (by simp)

instance : IsTrans (Int × String) keyLt :=
  ⟨fun _ _ _ h₁ h₂ => lt_trans h₁ h₂⟩

theorem mapM_option_isSome {α β : Type} (f : α → Option β) :
    ∀ l : List α, (∀ x ∈ l, (f x).isSome) → ∃ ys, l.mapM f = some ys := by
  intro l
  induction l with
  | nil => intro _; exact ⟨[], rfl⟩
  | cons x rest ih =>
    intro h
    obtain ⟨y, hy⟩ := Option.isSome_iff_exists.mp (h x (by simp))
    obtain ⟨ys, hys⟩ := ih (fun z hz => h z (by simp [hz]))
    exact ⟨y :: ys, by rw [List.mapM_cons, hy, hys]; rfl⟩

/-- C4: the record framer that the draft pipeline runs
(`_pivot_values_on_key`, `visa/transform.py`) opens a new transaction
when the sequence is `≤` the previous one, not strictly less: at the
sequence `[0,1,1,2]` it produces two transactions where the strictly-less
contract of the claim (and of `transformers.transform_baseii_drafts`)
produces one; on `[0,1,0,2,3]` both produce exactly two transactions,
each line sitting at its own sequence key. -/
theorem framer_le_rule_diverges_from_strict_contract :
    groupPairsLe [((0 : Int), "l0"), (1, "l1"), (1, "l2"), (2, "l3")] =
      [[(0, "l0"), (1, "l1")], [(1, "l2"), (2, "l3")]] ∧
    groupPairsLt [((0 : Int), "l0"), (1, "l1"), (1, "l2"), (2, "l3")] =
      [[(0, "l0"), (1, "l1"), (1, "l2"), (2, "l3")]] ∧
    groupPairsLe [((0 : Int), "a"), (1, "b"), (0, "c"), (2, "d"), (3, "e")] =
      [[(0, "a"), (1, "b")], [(0, "c"), (2, "d"), (3, "e")]] := by
  refine ⟨by decide, by decide, by decide⟩

/-- C10: whenever every selected line carries an integer at the sequence
slice, the pivot of `_pivot_values_on_key` is total — the `≤`-grouping
makes the keys inside every produced transaction strictly increasing, so
the duplicate-key check of `DataFrame.pivot` never fires. -/
theorem pivot_values_on_key_total (a b : Nat) (lines : List String)
    (h : ∀ l ∈ lines, (pyInt (strSlice l a b)).isSome) :
    ∃ gs, pivotValuesOnKey a b lines = some gs ∧
      ∀ g ∈ gs, List.Chain' keyLt g := by
  obtain ⟨pairs, hpairs⟩ :=
    mapM_option_isSome (fun l => (pyInt (strSlice l a b)).map (fun k => (k, l)))
      lines (fun l hl => by
        obtain ⟨k, hk⟩ := Option.isSome_iff_exists.mp (h l hl)
        simp [hk])
  refine ⟨groupPairsLe pairs, ?_, chain_groupPairsLe pairs⟩
  have hnodup : ∀ g ∈ groupPairsLe pairs, ((g.map Prod.fst).Nodup) := by
    intro g hg
    have hchain := chain_groupPairsLe pairs g hg
    have hpw : List.Pairwise keyLt g := List.chain'_iff_pairwise.mp hchain
    have : List.Pairwise (· < ·) (g.map Prod.fst) :=
      List.pairwise_map.mpr hpw
    exact this.imp (fun hlt => ne_of_lt hlt)
  simp only [pivotValuesOnKey, hpairs]
  rw [if_pos]
  simp only [List.all_eq_true, decide_eq_true_eq]
  intro g hg
  exact hnodup g hg

/-- Witness for `pivot_values_on_key_total` at a concrete two-line file. -/
theorem pivot_values_on_key_total_witness :
    (∀ l ∈ ["05a0", "05a1"], (pyInt (strSlice l 3 4)).isSome) ∧
    (∃ gs, pivotValuesOnKey 3 4 ["05a0", "05a1"] = some gs ∧
      ∀ g ∈ gs, List.Chain' keyLt g) :=
  ⟨by decide, pivot_values_on_key_total 3 4 ["05a0", "05a1"] (by decide)⟩

theorem strSlice_length (s : String) (a b : Nat) :
    (strSlice s a b).length = min (b - a) (s.length - a) := by
  show ((s.data.drop a).take (b - a)).length = _
  rw [List.length_take, List.length_drop, String.length]

theorem strSliceFrom_length (s : String) (a : Nat) :
    (strSliceFrom s a).length = s.length - a := by
  show (s.data.drop a).length = _
  rw [List.length_drop, String.length]

set_option maxRecDepth 4000 in
/-- C7 (counterexample): a file whose header is 168 characters long but
whose second line is the 4-character draft line `"05a0"` keeps that short
line through CTF normalisation and through the draft selection, so not
every surviving line is 168 characters long. -/
theorem ctf_surviving_line_length_counterexample :
    loadAsCtf [⟨List.replicate 168 'a'⟩, "05a0"] =
      some [⟨List.replicate 168 'a'⟩, "05a0"] ∧
    selectDrafts [⟨List.replicate 168 'a'⟩, "05a0"] = ["05a0"] ∧
    ("05a0" : String).length ≠ 168 := by
  refine ⟨by decide, by decide, by decide⟩

/-- C7 (amended): an unknown header length yields an empty series and an
empty transform artifact; and when every line shares the header's length,
every line surviving CTF normalisation is exactly 168 characters long. -/
theorem load_as_ctf_normalization (hdr : String) (rest : List String) :
    (hdr.length ≠ 168 → hdr.length ≠ 170 →
      loadAsCtf (hdr :: rest) = some [] ∧
      ∀ raw, readPlaintext raw = hdr :: rest →
        transformBaseiiDrafts raw = .ok []) ∧
    ((∀ l ∈ hdr :: rest, l.length = hdr.length) →
      ∀ ctf, loadAsCtf (hdr :: rest) = some ctf → ∀ l ∈ ctf, l.length = 168) := by
  constructor
  · intro h168 h170
    have hload : loadAsCtf (hdr :: rest) = some [] := by
      simp [loadAsCtf, h168, h170]
    refine ⟨hload, ?_⟩
    intro raw hraw
    simp only [transformBaseiiDrafts, hraw, hload]
    rfl
  · intro hall ctf hctf l hl
    by_cases h168 : hdr.length = 168
    · simp only [loadAsCtf, if_pos h168] at hctf
      obtain rfl : hdr :: rest = ctf := by injection hctf
      exact (hall l hl).trans h168
    · by_cases h170 : hdr.length = 170
      · simp only [loadAsCtf, if_neg h168, if_pos h170] at hctf
        obtain rfl : _ = ctf := by injection hctf
        obtain ⟨x, hx, rfl⟩ := List.mem_map.mp hl
        have hxlen : x.length = 170 := (hall x hx).trans h170
        rw [String.length_append, strSlice_length, strSliceFrom_length, hxlen]
        decide
      · simp only [loadAsCtf, if_neg h168, if_neg h170] at hctf
        obtain rfl : ([] : List String) = ctf := by injection hctf
        simp at hl

set_option maxRecDepth 4000 in
/-- Witness for `load_as_ctf_normalization`: both branches exercised at
concrete files. -/
theorem load_as_ctf_normalization_witness :
    (loadAsCtf ["xy"] = some [] ∧
      ∀ raw, readPlaintext raw = ["xy"] → transformBaseiiDrafts raw = .ok []) ∧
    (∀ l ∈ [(⟨List.replicate 168 'a'⟩ : String)], l.length = 168) :=
  ⟨(load_as_ctf_normalization "xy" []).1 (by decide) (by decide),
   (load_as_ctf_normalization ⟨List.replicate 170 'a'⟩ []).2 (by decide)
     [⟨List.replicate 168 'a'⟩] (by decide)⟩

/-- C8: an I/O failure while reading the landing file is fatal to the
transform stage — `read_plaintext` swallows the `OSError` into an empty
line frame, but `_load_as_ctf`'s header access `records.iloc[0, 0]` then
raises `IndexError`, so the stage terminates with an error and
`write_parquet` is never reached: no artifact is committed. -/
theorem read_failure_fatal_no_artifact (e : String) :
    transformBaseiiDrafts (Except.error e) =
      Except.error "IndexError: single positional indexer is out-of-bounds" := rfl

/-! ## Field cleaner (`visa/clean.py`) -/

/-- The `"float"` case of `_clean_field_values` (`visa/clean.py`): a
non-positive `float_decimals` raises `ValueError` (`none`); otherwise
every value is stripped, parsed by `pd.to_numeric(..., errors="coerce")`
(an unparseable string becomes null) and divided by `10 ** float_decimals`.
This source revision applies **no** zoned-decimal overpunch fixup before
parsing. -/
def cleanFloatField (floatDecimals : Int) (values : List String) :
    Option (List (Option Rat)) :=
  if floatDecimals ≤ 0 then none
  else some (values.map (fun v =>
    (pyFloat (pyStrip v)).map (fun q => q / (10 : Rat) ^ floatDecimals.toNat)))

unseal Rat.mul Rat.inv Rat.add in
/-- C5: the cleaner's decimal branch contains no overpunch fixup, so the
sign-overpunched `"12A"` and `"12}"` coerce to null at scale 2 instead of
the 1.21 and 1.20 the specification requires; a plain digit string is
parsed and scaled, and a non-positive scale is a configuration error. -/
theorem clean_float_no_overpunch :
    cleanFloatField 2 ["12A", "12\x7d"] = some [none, none] ∧
    cleanFloatField 2 [" 121 "] = some [some (121 / 100 : Rat)] ∧
    cleanFloatField 0 ["121"] = none := by
  refine ⟨by decide, by decide, by decide⟩

/-! ## Interchange rule engine (`visa/interchange.py`) -/

/-- Python `str(i)` for an integer (used by the range expansion
`list(map(str, range(lo, hi + 1)))`). -/
def natToStrAux : Nat → Nat → List Char
  | 0, _ => []
  | fuel + 1, n =>
    if n < 10 then [Char.ofNat (48 + n)]
    else natToStrAux fuel (n / 10) ++ [Char.ofNat (48 + n % 10)]

/-- Python `str(i)` for an `Int`. -/
def intToStr (i : Int) : String :=
  match i with
  | .ofNat n => ⟨natToStrAux (n + 1) n⟩
  | .negSucc m => ⟨'-' :: natToStrAux (m + 2) (m + 1)⟩

/-- Python `range(lo, hi + 1)` as a list of integers. -/
def intRange (lo hi : Int) : List Int :=
  (List.range (hi + 1 - lo).toNat).map (fun i => lo + i)

/-- One exchange-rate row as read by `_get_exchange_rates`. -/
structure Rate where
  currency_from : String
  currency_to : String
  currency_from_code : String
  currency_to_code : String
  exchange_value : Rat
deriving DecidableEq, Repr

/-- One transaction row of the merged clean + calculated frame, as
consumed by `_evaluate_interchange_fees`: the jurisdiction assigned by the
calculate stage, the stringified view of each column (what
`batch[name].astype(str)` yields for the default criterion group) and the
numeric view of the range-criterion columns (`none` = `NaN`, on which
every pandas comparison is false). -/
structure Txn where
  jurisdiction_assigned : String
  strCols : List (String × String)
  numCols : List (String × Option Rat)
deriving DecidableEq, Repr

/-- The stringified value of a column (`batch[name].astype(str)`). -/
def strColVal (t : Txn) (name : String) : String :=
  (t.strCols.lookup name).getD ""

/-- The numeric value of a column; `none` models `NaN`. -/
def numColVal (t : Txn) (name : String) : Option Rat :=
  (t.numCols.lookup name).getD none

/-- One `visa_rules` row after `_get_visa_rule_definitions`' renaming: the
identity columns (the `conditions_to_skip` / `update_columns` of
`_evaluate_interchange_fees`) are fields; every other column is a
`(column name, criterion cell)` pair of `criteria`, in column order. -/
structure Rule where
  region_country_code : String
  valid_from : Option Int
  valid_until : Option Int
  intelica_id : Int
  fee_descriptor : String
  fee_currency : String
  fee_variable : Rat
  fee_fixed : Rat
  fee_min : Rat
  fee_cap : Rat
  criteria : List (String × String)
deriving DecidableEq, Repr

/-- The eight interchange identity/fee columns written on a transaction. -/
structure Binding where
  region_country_code : String
  intelica_id : Int
  fee_descriptor : String
  fee_currency : String
  fee_variable : Rat
  fee_fixed : Rat
  fee_min : Rat
  fee_cap : Rat
deriving DecidableEq, Repr

/-- The initialisation of the `interchange_*` columns: `intelica_id = -1`,
fee numbers zero, strings empty. -/
def initBinding : Binding :=
  { region_country_code := "", intelica_id := -1, fee_descriptor := "",
    fee_currency := "", fee_variable := 0, fee_fixed := 0,
    fee_min := 0, fee_cap := 0 }

/-- The eight columns a binding rule writes (`update_columns`). -/
def bindingOf (r : Rule) : Binding :=
  { region_country_code := r.region_country_code,
    intelica_id := r.intelica_id, fee_descriptor := r.fee_descriptor,
    fee_currency := r.fee_currency, fee_variable := r.fee_variable,
    fee_fixed := r.fee_fixed, fee_min := r.fee_min, fee_cap := r.fee_cap }

/-- The normalisation of `_apply_condition`:
`condition_value.replace(" ", "").upper()`. -/
def normCell (cell : String) : String :=
  pyUpper (pyReplace cell " " "")

/-- The blank cells `_apply_condition` treats as "no condition". -/
def isBlankCell (cv : String) : Bool :=
  cv == "" || cv == "NAN" || cv == "NONE"

/-- Token-list parse of `_apply_condition_default`: each comma-separated
token may carry `NOT:` (checked and removed as a substring), and a token
containing `-` is split at the first `-` and expanded through
`list(map(str, range(int(lo), int(hi) + 1)))` — an empty expansion falls
back to the raw token (`filled_range or [value]`); a non-integer range
bound raises `ValueError` (`none`).  Returns `(valid_values,
not_valid_values)`. -/
def parseDefaultTokens : List String → Option (List String × List String)
  | [] => some ([], [])
  | tok :: rest => do
    let notFlag := hasSubstr tok "NOT:"
    let v := pyReplace tok "NOT:" ""
    let reformatted ←
      if hasSubstr v "-" then do
        let pr ← splitOnce v "-"
        let lon ← pyInt pr.1
        let hin ← pyInt pr.2
        let rng := intRange lon hin
        pure (if rng.isEmpty then [v] else rng.map intToStr)
      else pure [v]
    let pn ← parseDefaultTokens rest
    pure (if notFlag then (pn.1, reformatted ++ pn.2)
          else (reformatted ++ pn.1, pn.2))

/-- `_apply_condition_default` over the normalised cell: substitute
`SPACE → " "` and `BLANK → ""`, split on `,` and collect the token sets. -/
def parseDefault (cv : String) : Option (List String × List String) :=
  parseDefaultTokens (splitChar (pyReplace (pyReplace cv "SPACE" " ") "BLANK" "") ',')

/-- Row-level predicate of `_apply_condition_default`: kept by the
`isin(valid_values)` filter (skipped when no positive token) and by the
`~isin(not_valid_values)` filter. -/
def defaultPasses (pn : List String × List String) (v : String) : Bool :=
  (pn.1.isEmpty || pn.1.contains v) && !(pn.2.contains v)

/-- The numeric-range expression shared by `_apply_condition_greater_less`
and `_apply_condition_amount_currency`: a cell containing `<`, `>` or `=`
must be a comparison operator followed by a `DataFrame.query` numeric
literal; otherwise a cell containing `BETWEEN` or `AND` is an inclusive
`lo AND hi` range; anything else raises (`none`).  (The cell reaches this
point with all spaces removed and upper-cased.) -/
def parseRangePred (cv : String) : Option (Rat → Bool) :=
  if cv.data.contains '<' || cv.data.contains '>' || cv.data.contains '=' then
    if "<=".data.isPrefixOf cv.data then
      (pyFloat ⟨cv.data.drop 2⟩).map (fun q x => decide (x ≤ q))
    else if ">=".data.isPrefixOf cv.data then
      (pyFloat ⟨cv.data.drop 2⟩).map (fun q x => decide (q ≤ x))
    else if "==".data.isPrefixOf cv.data then
      (pyFloat ⟨cv.data.drop 2⟩).map (fun q x => decide (x = q))
    else if "<".data.isPrefixOf cv.data then
      (pyFloat ⟨cv.data.drop 1⟩).map (fun q x => decide (x < q))
    else if ">".data.isPrefixOf cv.data then
      (pyFloat ⟨cv.data.drop 1⟩).map (fun q x => decide (q < x))
    else none
  else if hasSubstr cv "BETWEEN" || hasSubstr cv "AND" then
    match splitOnce (pyReplace cv "BETWEEN" "") "AND" with
    | none => none
    | some pr => do
      let lo ← pyFloat pr.1
      let hi ← pyFloat pr.2
      pure (fun x => decide (lo ≤ x) && decide (x ≤ hi))
  else none

/-- The criterion columns routed to `_apply_condition_greater_less`. -/
def columnGroupGreaterLess : List String := ["surcharge_amount", "timeliness"]

/-- The criterion columns routed to `_apply_condition_amount_currency`. -/
def columnGroupAmountCurrency : List String := ["source_amount"]

/-- `_apply_condition` as a per-row-content predicate: `none` models the
`ValueError` a malformed cell raises (the raise never depends on the row,
only on the cell), `some p` the test a row's columns are narrowed by.
For the amount-currency group the left merge duplicates the row once per
exchange-rate row with `currency_to == target` matching the row's
`source_currency_code == currency_from_code`, and a copy survives when
`amount * exchange_value` passes the range check — so the row's content
survives somewhere iff **some** matching rate passes; an unmatched
currency yields `NaN`, which fails every comparison.  (Row *identity* is
not preserved on that path: see `mergeAmountRates`.) -/
def parseCondRow (rates : List Rate) (name cell : String) : Option (Txn → Bool) :=
  let cv := normCell cell
  if isBlankCell cv then some (fun _ => true)
  else if columnGroupGreaterLess.contains name then
    (parseRangePred cv).map (fun p t =>
      match numColVal t name with
      | some x => p x
      | none => false)
  else if columnGroupAmountCurrency.contains name then
    match splitOnce cv "," with
    | none => none
    | some pr =>
      (parseRangePred pr.2).map (fun p t =>
        ((rates.filter (fun r => r.currency_to == pr.1)).filter
            (fun r => r.currency_from_code ==
              strColVal t "source_currency_code")).any
          (fun r =>
            match numColVal t name with
            | some amt => p (amt * r.exchange_value)
            | none => false))
  else
    (parseDefault cv).map (fun pn t => defaultPasses pn (strColVal t name))

/-- The rule's evaluated conditions: every criterion column whose raw cell
is not the empty string (`rule[cond_name] != ""`), in column order. -/
def ruleConds (r : Rule) : List (String × String) :=
  r.criteria.filter (fun p => p.2 ≠ "")

/-- The amount-currency condition over a **labelled** batch, exactly as
`_apply_condition_amount_currency` behaves on a pandas frame:
`pd.merge(left=batch, right=target_rates, how="left", left_on=
"source_currency_code", right_on="currency_from_code")` duplicates each
row once per matching rate row (an unmatched row keeps one copy with a
`NaN` rate), **discards the batch's index labels and assigns a fresh
`RangeIndex 0..k-1`**, then the range predicate filters on
`comparison_value = amount * exchange_value` (`NaN` fails).  The result
keeps the merged frame's new labels. -/
def mergeAmountRates (rates : List Rate) (target name : String)
    (p : Rat → Bool) (batch : List (Nat × Txn)) : List (Nat × Txn) :=
  let merged := batch.flatMap (fun lt =>
    let ms := (rates.filter (fun r => r.currency_to == target)).filter
      (fun r => r.currency_from_code == strColVal lt.2 "source_currency_code")
    if ms.isEmpty then [(lt.2, (none : Option Rat))]
    else ms.map (fun r => (lt.2, some r.exchange_value)))
  (merged.enum.filter (fun e =>
    match e.2.2, numColVal e.2.1 name with
    | some rv, some amt => p (amt * rv)
    | _, _ => false)).map (fun e => (e.1, e.2.1))

/-- `_apply_condition` over a labelled batch: a non-blank amount-currency
cell goes through the index-resetting merge (`mergeAmountRates`); every
other condition is a label-preserving row filter. -/
def applyCondition (rates : List Rate) (name cell : String)
    (batch : List (Nat × Txn)) : Option (List (Nat × Txn)) :=
  if name ∈ columnGroupAmountCurrency ∧
      ¬ isBlankCell (normCell cell) = true then
    match splitOnce (normCell cell) "," with
    | none => none
    | some pr =>
      (parseRangePred pr.2).map (fun p => mergeAmountRates rates pr.1 name p batch)
  else
    (parseCondRow rates name cell).map (fun p =>
      batch.filter (fun lt => p lt.2))

/-- Step 2 of `_evaluate_interchange_fees`: narrow the labelled batch by
each condition in order, stopping once the batch is empty; a malformed
cell raises (`none`). -/
def applyConditionsB (rates : List Rate) :
    List (String × String) → List (Nat × Txn) → Option (List (Nat × Txn))
  | [], batch => some batch
  | (n, c) :: rest, batch =>
    match applyCondition rates n c batch with
    | none => none
    | some b =>
      if b.isEmpty then some b else applyConditionsB rates rest b

/-- Does one transaction's content pass all of a condition list?
Evaluated left to right with the engine's short-circuit: the first
failing condition stops evaluation (`some false`); a malformed cell
reached before that is the fatal `ValueError` (`none`). -/
def rowMatches (rates : List Rate) : List (String × String) → Txn → Option Bool
  | [], _ => some true
  | (n, c) :: rest, t =>
    match parseCondRow rates n c with
    | none => none
    | some p => if p t then rowMatches rates rest t else some false

/-- Does a transaction match a rule: all non-blank criteria pass. -/
def matchesRule (rates : List Rate) (r : Rule) (t : Txn) : Option Bool :=
  rowMatches rates (ruleConds r) t

/-- Is a state entry an element of the rule's candidate batch: still
unbound (`interchange_intelica_id == -1`) and in the rule's
jurisdiction. -/
def inBatch (r : Rule) (p : Txn × Binding) : Bool :=
  p.2.intelica_id == -1 && p.1.jurisdiction_assigned == r.region_country_code

/-- Step 1's batch selection `transactions[mask]`: the transactions frame
carries a `RangeIndex`, so the selected rows keep their frame **position**
as index label. -/
def batchFrom (r : Rule) : Nat → List (Txn × Binding) → List (Nat × Txn)
  | _, [] => []
  | i, p :: rest =>
    if inBatch r p then (i, p.1) :: batchFrom r (i + 1) rest
    else batchFrom r (i + 1) rest

/-- Step 3's `transactions.update(next_batch[...])`: `update` aligns on
index labels, so the rule's eight columns are written to every frame
position occurring among the surviving batch's labels — whatever those
labels now are. -/
def updateByLabels (r : Rule) (labels : List Nat) :
    Nat → List (Txn × Binding) → List (Txn × Binding)
  | _, [] => []
  | i, p :: rest =>
    (if labels.contains i then (p.1, bindingOf r) else p) ::
      updateByLabels r labels (i + 1) rest

/-- One iteration of the rule loop of `_evaluate_interchange_fees`:
select the labelled candidate batch (skip the rule when it is empty),
narrow it by the rule's conditions, and — unless no row survived — write
the rule's eight identity/fee columns to the frame rows whose position is
among the surviving labels. -/
def stepRule (rates : List Rate) (r : Rule) (st : List (Txn × Binding)) :
    Option (List (Txn × Binding)) :=
  let batch := batchFrom r 0 st
  if batch.isEmpty then some st
  else
    match applyConditionsB rates (ruleConds r) batch with
    | none => none
    | some survivors =>
      if survivors.isEmpty then some st
      else some (updateByLabels r (survivors.map Prod.fst) 0 st)

/-- The rule loop: process each rule in order over the running state. -/
def goRules (rates : List Rate) : List Rule → List (Txn × Binding) →
    Option (List (Txn × Binding))
  | [], st => some st
  | r :: rest, st =>
    match stepRule rates r st with
    | none => none
    | some st₁ => goRules rates rest st₁

/-- `_evaluate_interchange_fees`: keep only rules whose jurisdiction occurs
among the transactions, initialise every binding to `initBinding`, and run
the rule loop. -/
def evalInterchangeFees (rates : List Rate) (rules : List Rule)
    (ts : List Txn) : Option (List (Txn × Binding)) :=
  let rulesToEval := rules.filter (fun r =>
    ts.any (fun t => t.jurisdiction_assigned == r.region_country_code))
  goRules rates rulesToEval (ts.map (fun t => (t, initBinding)))

/-- The sort key of `_get_visa_rule_definitions`:
`sort_values(["region_country_code", "intelica_id"])`. -/
def ruleLexLe (a b : Rule) : Prop :=
  a.region_country_code < b.region_country_code ∨
    (a.region_country_code = b.region_country_code ∧
      a.intelica_id ≤ b.intelica_id)

instance : DecidableRel ruleLexLe := fun a b => by
  unfold ruleLexLe; infer_instance

instance : IsTotal Rule ruleLexLe := by
  constructor
  intro a b
  rcases lt_trichotomy a.region_country_code b.region_country_code with h | h | h
  · exact Or.inl (Or.inl h)
  · rcases le_total a.intelica_id b.intelica_id with h' | h'
    · exact Or.inl (Or.inr ⟨h, h'⟩)
    · exact Or.inr (Or.inr ⟨h.symm, h'⟩)
  · exact Or.inr (Or.inl h)

instance : IsTrans Rule ruleLexLe := by
  constructor
  intro a b c hab hbc
  rcases hab with hab | ⟨hab, hab'⟩
  · rcases hbc with hbc | ⟨hbc, _⟩
    · exact Or.inl (hab.trans hbc)
    · exact Or.inl (hbc ▸ hab)
  · rcases hbc with hbc | ⟨hbc, hbc'⟩
    · exact Or.inl (hab ▸ hbc)
    · exact Or.inr ⟨hab.trans hbc, hab'.trans hbc'⟩

/-- `_get_visa_rule_definitions`: default missing `valid_from` /
`valid_until` dates to **today's wall-clock date**
(`fillna(date.today())`), keep rules valid on the file's processing date,
and sort by `(region_country_code, intelica_id)` ascending.  (The
draft-case column renaming is reflected in the `criteria` column names.) -/
def getVisaRuleDefinitions (fileDate today : Int) (rules : List Rule) :
    List Rule :=
  let filled := rules.map (fun r =>
    { r with valid_from := some (r.valid_from.getD today),
             valid_until := some (r.valid_until.getD today) })
  let valid := filled.filter (fun r =>
    decide (r.valid_from.getD today ≤ fileDate) &&
      decide (fileDate ≤ r.valid_until.getD today))
  List.insertionSort ruleLexLe valid

/-- C3 (counterexample): the range token `03-05` expands through
`list(map(str, range(3, 6)))` to the unpadded strings `3,4,5`, so the cell
`"01,03-05,NOT:04"` does **not** match the stringified value `"03"` (nor
`"05"`), and the zero-padded exclusion `NOT:04` does not exclude the
value `"4"`, contrary to the claimed `{01,03,05}` ∌ `04` example. -/
theorem default_criterion_example_counterexample :
    parseDefault (normCell "01,03-05,NOT:04") =
      some (["01", "3", "4", "5"], ["04"]) ∧
    ((parseCondRow [] "usage_code" "01,03-05,NOT:04").map (fun p =>
      p { jurisdiction_assigned := "", strCols := [("usage_code", "03")],
          numCols := [] })) = some false ∧
    ((parseCondRow [] "usage_code" "01,03-05,NOT:04").map (fun p =>
      p { jurisdiction_assigned := "", strCols := [("usage_code", "05")],
          numCols := [] })) = some false ∧
    ((parseCondRow [] "usage_code" "01,03-05,NOT:04").map (fun p =>
      p { jurisdiction_assigned := "", strCols := [("usage_code", "01")],
          numCols := [] })) = some true ∧
    ((parseCondRow [] "usage_code" "01,03-05,NOT:04").map (fun p =>
      p { jurisdiction_assigned := "", strCols := [("usage_code", "4")],
          numCols := [] })) = some true := by
  refine ⟨by decide, by decide, by decide, by decide, by decide⟩

/-- C3 (amended): for any default-group criterion cell that parses to the
token sets `(pos, neg)` — `NOT:`-prefixed tokens excluded, integer ranges
expanded inclusively to unpadded decimal strings — the engine's row
predicate holds exactly when the column's stringified value is in the
positive-token set (when any positive token is present) and not in the
negative-token set. -/
theorem default_criterion_semantics (rates : List Rate) (name cell : String)
    (pos neg : List String) (v : String)
    (hgl : name ∉ columnGroupGreaterLess)
    (hac : name ∉ columnGroupAmountCurrency)
    (hblank : isBlankCell (normCell cell) = false)
    (h : parseDefault (normCell cell) = some (pos, neg)) :
    ((parseCondRow rates name cell).map (fun p =>
      p { jurisdiction_assigned := "", strCols := [(name, v)], numCols := [] })) =
      some (defaultPasses (pos, neg) v) ∧
    (defaultPasses (pos, neg) v = true ↔ ((pos = [] ∨ v ∈ pos) ∧ v ∉ neg)) := by
  constructor
  · have hv : strColVal
        { jurisdiction_assigned := "", strCols := [(name, v)], numCols := [] }
        name = v := by
      simp [strColVal, List.lookup]
    simp [parseCondRow, hblank, hgl, hac, h, hv]
  · simp [defaultPasses, List.isEmpty_iff, or_iff_not_imp_left]

/-- Witness for `default_criterion_semantics` at the example cell. -/
theorem default_criterion_semantics_witness :
    ((parseCondRow [] "pos_entry_mode" "01,03-05,NOT:04").map (fun p =>
      p { jurisdiction_assigned := "", strCols := [("pos_entry_mode", "4")],
          numCols := [] })) =
      some (defaultPasses (["01", "3", "4", "5"], ["04"]) "4") ∧
    (defaultPasses (["01", "3", "4", "5"], ["04"]) "4" = true ↔
      ((["01", "3", "4", "5"] = ([] : List String) ∨
        "4" ∈ ["01", "3", "4", "5"]) ∧ "4" ∉ ["04"])) :=
  default_criterion_semantics [] "pos_entry_mode" "01,03-05,NOT:04"
    ["01", "3", "4", "5"] ["04"] "4" (by decide) (by decide) (by decide)
    (by decide)

/-- C9 (counterexample): the interchange stage is not a pure function of
its input artifact and metadata snapshot — `_get_visa_rule_definitions`
fills missing validity dates with `date.today()`, so a rule with a null
`valid_until` and a processing date of day 100 is dropped when the stage
runs on day 50 and kept when it reruns on day 150. -/
theorem rule_stage_depends_on_wall_clock :
    getVisaRuleDefinitions 100 50
        [{ region_country_code := "840", valid_from := some 0,
           valid_until := none, intelica_id := 1, fee_descriptor := "",
           fee_currency := "", fee_variable := 0, fee_fixed := 0,
           fee_min := 0, fee_cap := 0, criteria := [] }] ≠
      getVisaRuleDefinitions 100 150
        [{ region_country_code := "840", valid_from := some 0,
           valid_until := none, intelica_id := 1, fee_descriptor := "",
           fee_currency := "", fee_variable := 0, fee_fixed := 0,
           fee_min := 0, fee_cap := 0, criteria := [] }] := by decide

/-- C9 (amended): each stage is a deterministic function of its input
artifact, its metadata snapshot and the current wall-clock date; the date
enters only through `fillna(date.today())` on missing rule-validity
bounds, so whenever every rule carries explicit `valid_from` and
`valid_until` dates the selected rule set is independent of the day the
stage runs. -/
theorem rule_defs_today_independent (rules : List Rule) (fileDate : Int)
    (h : ∀ r ∈ rules, r.valid_from ≠ none ∧ r.valid_until ≠ none)
    (t₁ t₂ : Int) :
    getVisaRuleDefinitions fileDate t₁ rules =
      getVisaRuleDefinitions fileDate t₂ rules := by
  unfold getVisaRuleDefinitions
  have hmap : rules.map (fun r =>
      { r with valid_from := some (r.valid_from.getD t₁),
               valid_until := some (r.valid_until.getD t₁) }) =
    rules.map (fun r =>
      { r with valid_from := some (r.valid_from.getD t₂),
               valid_until := some (r.valid_until.getD t₂) }) := by
    apply List.map_congr_left
    intro r hr
    obtain ⟨h1, h2⟩ := h r hr
    obtain ⟨a, ha⟩ := Option.ne_none_iff_exists'.mp h1
    obtain ⟨b, hb⟩ := Option.ne_none_iff_exists'.mp h2
    simp [ha, hb]
  rw [hmap]
  have hfil : ∀ L : List Rule,
      (∀ r' ∈ L, r'.valid_from ≠ none ∧ r'.valid_until ≠ none) →
      L.filter (fun r => decide (r.valid_from.getD t₁ ≤ fileDate) &&
        decide (fileDate ≤ r.valid_until.getD t₁)) =
      L.filter (fun r => decide (r.valid_from.getD t₂ ≤ fileDate) &&
        decide (fileDate ≤ r.valid_until.getD t₂)) := by
    intro L hL
    apply List.filter_congr
    intro r' hr'
    obtain ⟨h1, h2⟩ := hL r' hr'
    obtain ⟨a, ha⟩ := Option.ne_none_iff_exists'.mp h1
    obtain ⟨b, hb⟩ := Option.ne_none_iff_exists'.mp h2
    simp [ha, hb]
  have hfil' := hfil
    (rules.map (fun r =>
      { r with valid_from := some (r.valid_from.getD t₂),
               valid_until := some (r.valid_until.getD t₂) }))
    (by
      intro r' hr'
      obtain ⟨r, _, rfl⟩ := List.mem_map.mp hr'
      exact ⟨by simp, by simp⟩)
  dsimp only
  rw [hfil']

/-- Witness for `rule_defs_today_independent`: a rule with explicit dates
selects identically on two different run days. -/
theorem rule_defs_today_independent_witness :
    getVisaRuleDefinitions 100 5
        [{ region_country_code := "840", valid_from := some 0,
           valid_until := some 200, intelica_id := 1, fee_descriptor := "",
           fee_currency := "", fee_variable := 0, fee_fixed := 0,
           fee_min := 0, fee_cap := 0, criteria := [] }] =
      getVisaRuleDefinitions 100 500
        [{ region_country_code := "840", valid_from := some 0,
           valid_until := some 200, intelica_id := 1, fee_descriptor := "",
           fee_currency := "", fee_variable := 0, fee_fixed := 0,
           fee_min := 0, fee_cap := 0, criteria := [] }] :=
  rule_defs_today_independent _ 100 (by decide) 5 500

/-! ## Jurisdiction classifier (`visa/calculate.py`, `jurisdiction.calculate`) -/

/-- The draft case of `jurisdiction.calculate`: the five `np.select`
conditions in order, for one transaction row.  `merchantRegion` is the
country-table lookup of the merchant country, `ardefCountry` /
`ardefRegion` the ARDEF projections of the bound account interval; the
three BIN lists are the comma-split client columns; `acquirerRefId` is the
stringified `account_reference_number_acquiring_identifier`. -/
def jurisdictionCalculate (fileType : String)
    (issuingBins6 issuingBins8 acquiringBins : List String)
    (merchantCountry merchantRegion ardefCountry ardefRegion : String)
    (collectionOnlyFlag accountNumber acquirerRefId : String) : String :=
  let bin6 := strSlice (pyReplace accountNumber "*" "0") 0 6
  let bin8 := strSlice (pyReplace accountNumber "*" "0") 0 8
  if merchantCountry = ardefCountry ∧ fileType = "OUT" ∧
      (collectionOnlyFlag = "C" ∨ issuingBins6.contains bin6 ∨
        issuingBins8.contains bin8) then "on-us"
  else if merchantCountry = ardefCountry ∧ fileType = "IN" ∧
      (collectionOnlyFlag = "C" ∨ acquiringBins.contains (zfill6 acquirerRefId))
    then "on-us"
  else if merchantCountry = ardefCountry then "off-us"
  else if merchantCountry ≠ ardefCountry ∧ merchantRegion = ardefRegion then
    "intraregional"
  else if merchantCountry ≠ ardefCountry ∧ merchantRegion ≠ ardefRegion then
    "interregional"
  else ""

/-- C6 (counterexample): a same-country draft with
`collection_only_flag == "C"` is classified `on-us` even though the
client's BIN lists are empty, so `on-us` does not require the
transaction's BIN to be in the client's own BIN list. -/
theorem jurisdiction_on_us_counterexample :
    jurisdictionCalculate "OUT" [] [] [] "840" "1" "840" "1" "C"
      "4555551234567890" "0" = "on-us" ∧
    ¬ ("455555" ∈ ([] : List String)) := by
  refine ⟨by decide, by decide⟩

/-- C6 (amended): the draft jurisdiction classifier returns `on-us`
exactly when the merchant country equals the ARDEF (issuer) country and
either the collection-only flag is `"C"` or the file-side BIN matches the
client's list (outgoing files: 6- or 8-digit issuing BINs of the
asterisk-normalised PAN; incoming files: the zero-filled 6-digit acquirer
identifier); `off-us` exactly when the countries match and no such
condition holds; `intraregional` exactly when only the regions match;
`interregional` exactly when countries and regions both differ. -/
theorem jurisdiction_classification (ft : String)
    (i6 i8 acq : List String) (mc mr ac ar flag acct acqId : String) :
    (jurisdictionCalculate ft i6 i8 acq mc mr ac ar flag acct acqId = "on-us" ↔
      mc = ac ∧
        ((ft = "OUT" ∧ (flag = "C" ∨
            i6.contains (strSlice (pyReplace acct "*" "0") 0 6) ∨
            i8.contains (strSlice (pyReplace acct "*" "0") 0 8))) ∨
         (ft = "IN" ∧ (flag = "C" ∨ acq.contains (zfill6 acqId))))) ∧
    (jurisdictionCalculate ft i6 i8 acq mc mr ac ar flag acct acqId = "off-us" ↔
      mc = ac ∧
        ¬ ((ft = "OUT" ∧ (flag = "C" ∨
            i6.contains (strSlice (pyReplace acct "*" "0") 0 6) ∨
            i8.contains (strSlice (pyReplace acct "*" "0") 0 8))) ∨
           (ft = "IN" ∧ (flag = "C" ∨ acq.contains (zfill6 acqId))))) ∧
    (jurisdictionCalculate ft i6 i8 acq mc mr ac ar flag acct acqId =
        "intraregional" ↔ mc ≠ ac ∧ mr = ar) ∧
    (jurisdictionCalculate ft i6 i8 acq mc mr ac ar flag acct acqId =
        "interregional" ↔ mc ≠ ac ∧ mr ≠ ar) := by
  unfold jurisdictionCalculate
  by_cases hmc : mc = ac <;>
  by_cases hout : ft = "OUT" <;>
  by_cases hin : ft = "IN" <;>
  by_cases hflag : flag = "C" <;>
  by_cases h6 : strSlice (pyReplace acct "*" "0") 0 6 ∈ i6 <;>
  by_cases h8 : strSlice (pyReplace acct "*" "0") 0 8 ∈ i8 <;>
  by_cases hacq : zfill6 acqId ∈ acq <;>
  by_cases hmr : mr = ar <;>
  simp_all

/-! ## ARDEF resolver (`visa/calculate.py`, `_get_visa_ardef`) -/

/-- One `visa_ardef` row as read by `_get_visa_ardef`: the delete
indicator consumed by the SQL `where` clause, the integer range keys, the
temporal validity dates (`none` = `NaT`) and the remaining domain
attribute columns (funding source, country, region, product id, …),
which the resolver carries along unchanged. -/
structure ArdefRec where
  delete_indicator : String
  low_key_for_range : Int
  table_key : Int
  effective_date : Option Int
  valid_until : Option Int
  attrs : List (String × String)
deriving DecidableEq, Repr

/-- The effective-date sort key; the records reaching the sort all carry a
parsed (`some`) date because the validity filter drops `NaT` rows. -/
def effKey (r : ArdefRec) : Int := r.effective_date.getD 0

/-- The sort key of `_get_visa_ardef`:
`sort_values(["table_key", "effective_date", "low_key_for_range"],
ascending=[True, False, True])`. -/
def ardefLex (a b : ArdefRec) : Prop :=
  a.table_key < b.table_key ∨
    (a.table_key = b.table_key ∧
      (effKey b < effKey a ∨
        (effKey a = effKey b ∧ a.low_key_for_range ≤ b.low_key_for_range)))

instance : DecidableRel ardefLex := fun a b => by
  unfold ardefLex; infer_instance

instance : IsTotal ArdefRec ardefLex := by
  constructor
  intro a b
  unfold ardefLex
  omega

instance : IsTrans ArdefRec ardefLex := by
  constructor
  intro a b c hab hbc
  unfold ardefLex at *
  omega

/-- `drop_duplicates(subset=key, keep="first")`: keep a row only when its
key has not been seen before. -/
def dedupByKey {α κ : Type} [DecidableEq κ] (f : α → κ) :
    List κ → List α → List α
  | _, [] => []
  | seen, r :: rest =>
    if f r ∈ seen then dedupByKey f seen rest
    else r :: dedupByKey f (f r :: seen) rest

theorem dedupByKey_sublist {α κ : Type} [DecidableEq κ] (f : α → κ) :
    ∀ (l : List α) (seen : List κ), List.Sublist (dedupByKey f seen l) l := by
  intro l
  induction l with
  | nil => intro seen; simp [dedupByKey]
  | cons r rest ih =>
    intro seen
    by_cases h : f r ∈ seen
    · simp only [dedupByKey, if_pos h]
      exact (ih seen).trans (List.sublist_cons_self r rest)
    · simp only [dedupByKey, if_neg h]
      exact (ih (f r :: seen)).cons₂ r

theorem dedupByKey_not_mem_seen {α κ : Type} [DecidableEq κ] (f : α → κ) :
    ∀ (l : List α) (seen : List κ) (x : α),
      x ∈ dedupByKey f seen l → f x ∉ seen := by
  intro l
  induction l with
  | nil => intro seen x hx; simp [dedupByKey] at hx
  | cons r rest ih =>
    intro seen x hx
    by_cases h : f r ∈ seen
    · rw [dedupByKey, if_pos h] at hx
      exact ih seen x hx
    · rw [dedupByKey, if_neg h] at hx
      rcases List.mem_cons.mp hx with rfl | hx
      · exact h
      · have := ih (f r :: seen) x hx
        exact fun hmem => this (List.mem_cons_of_mem _ hmem)

theorem dedupByKey_pairwise_ne {α κ : Type} [DecidableEq κ] (f : α → κ) :
    ∀ (l : List α) (seen : List κ),
      List.Pairwise (fun a b => f a ≠ f b) (dedupByKey f seen l) := by
  intro l
  induction l with
  | nil => intro seen; simp [dedupByKey]
  | cons r rest ih =>
    intro seen
    by_cases h : f r ∈ seen
    · rw [dedupByKey, if_pos h]; exact ih seen
    · rw [dedupByKey, if_neg h]
      refine List.Pairwise.cons ?_ (ih (f r :: seen))
      intro x hx
      have := dedupByKey_not_mem_seen f rest (f r :: seen) x hx
      exact fun heq => this (heq ▸ List.mem_cons_self _ _)

/-- The overlap elimination: `previous_table_key = table_key.shift(1)` is
computed over the de-duplicated frame and rows with
`low_key_for_range ≤ previous_table_key` are dropped — the comparison is
against the immediate predecessor in pre-filter order, dropped or not. -/
def dropOverlapAux : Int → List ArdefRec → List ArdefRec
  | _, [] => []
  | prevTk, r :: rest =>
    if r.low_key_for_range ≤ prevTk then dropOverlapAux r.table_key rest
    else r :: dropOverlapAux r.table_key rest

/-- Overlap elimination over the full list; the first row's
`previous_table_key` is `NaN`, whose comparison is false, so it is kept. -/
def dropOverlaps : List ArdefRec → List ArdefRec
  | [] => []
  | r :: rest => r :: dropOverlapAux r.table_key rest

theorem dropOverlapAux_spec :
    ∀ (l : List ArdefRec) (prevTk : Int),
      List.Pairwise (fun a b => a.table_key < b.table_key) l →
      (∀ r ∈ l, prevTk < r.table_key) →
      (∀ r ∈ dropOverlapAux prevTk l, prevTk < r.low_key_for_range) ∧
        List.Pairwise (fun a b => a.table_key < b.low_key_for_range)
          (dropOverlapAux prevTk l) := by
  intro l
  induction l with
  | nil => intro prevTk _ _; simp [dropOverlapAux]
  | cons r rest ih =>
    intro prevTk hpw hgt
    have hpw' := List.pairwise_cons.mp hpw
    have hr : prevTk < r.table_key := hgt r (List.mem_cons_self _ _)
    have ihres := ih r.table_key hpw'.2 hpw'.1
    by_cases hle : r.low_key_for_range ≤ prevTk
    · rw [dropOverlapAux, if_pos hle]
      refine ⟨fun s hs => lt_trans hr (ihres.1 s hs), ihres.2⟩
    · rw [dropOverlapAux, if_neg hle]
      constructor
      · intro s hs
        rcases List.mem_cons.mp hs with rfl | hs
        · exact lt_of_not_le hle
        · exact lt_trans hr (ihres.1 s hs)
      · exact List.Pairwise.cons (fun s hs => ihres.1 s hs) ihres.2

theorem dropOverlaps_pairwise (l : List ArdefRec)
    (h : List.Pairwise (fun a b => a.table_key < b.table_key) l) :
    List.Pairwise (fun a b => a.table_key < b.low_key_for_range)
      (dropOverlaps l) := by
  cases l with
  | nil => simp [dropOverlaps]
  | cons r rest =>
    have h' := List.pairwise_cons.mp h
    have spec := dropOverlapAux_spec rest r.table_key h'.2 h'.1
    exact List.Pairwise.cons (fun s hs => spec.1 s hs) spec.2

/-- `_get_visa_ardef`: keep rows with `delete_indicator == " "` (the SQL
`where` clause), default a missing `valid_until` to the file's processing
date, keep rows valid on that date (a `NaT` effective date fails the
comparison), sort by `(table_key asc, effective_date desc, low_key asc)`,
de-duplicate `table_key` then `low_key_for_range` keeping the first, and
drop rows whose `low_key_for_range` is `≤` the previous row's
`table_key`. -/
def getVisaArdef (fileDate : Int) (records : List ArdefRec) : List ArdefRec :=
  let live := records.filter (fun r => r.delete_indicator == " ")
  let filled := live.map (fun r =>
    { r with valid_until := some (r.valid_until.getD fileDate) })
  let valid := filled.filter (fun r =>
    match r.effective_date with
    | some e => decide (e ≤ fileDate) &&
        decide (fileDate ≤ r.valid_until.getD fileDate)
    | none => false)
  let sorted := List.insertionSort ardefLex valid
  let d1 := dedupByKey (fun r => r.table_key) [] sorted
  let d2 := dedupByKey (fun r => r.low_key_for_range) [] d1
  dropOverlaps d2

/-- C2: for every ARDEF metadata table and processing date, the records
surviving the resolver form pairwise disjoint closed intervals: for every
pair of surviving records `i < j` in order,
`records[i].table_key < records[j].low_key_for_range`. -/
theorem ardef_intervals_disjoint (fileDate : Int) (records : List ArdefRec) :
    List.Pairwise (fun a b => a.table_key < b.low_key_for_range)
      (getVisaArdef fileDate records) := by
  unfold getVisaArdef
  apply dropOverlaps_pairwise
  set valid := ((records.filter (fun r => r.delete_indicator == " ")).map
    (fun r => { r with valid_until := some (r.valid_until.getD fileDate) })).filter
    (fun r =>
      match r.effective_date with
      | some e => decide (e ≤ fileDate) &&
          decide (fileDate ≤ r.valid_until.getD fileDate)
      | none => false) with hvalid
  have hs : List.Sorted ardefLex (List.insertionSort ardefLex valid) :=
    List.sorted_insertionSort ardefLex valid
  have htk_le : List.Pairwise (fun a b => a.table_key ≤ b.table_key)
      (List.insertionSort ardefLex valid) := by
    refine hs.imp ?_
    intro a b hab
    unfold ardefLex at hab
    omega
  have hsub1 := dedupByKey_sublist (fun r => r.table_key)
    (List.insertionSort ardefLex valid) []
  have h1le := htk_le.sublist hsub1
  have h1ne := dedupByKey_pairwise_ne (fun r => r.table_key)
    (List.insertionSort ardefLex valid) []
  have h1lt : List.Pairwise (fun a b => a.table_key < b.table_key)
      (dedupByKey (fun r => r.table_key) []
        (List.insertionSort ardefLex valid)) := by
    refine (h1le.and h1ne).imp ?_
    intro a b hab
    exact lt_of_le_of_ne hab.1 hab.2
  have hsub2 := dedupByKey_sublist (fun r => r.low_key_for_range)
    (dedupByKey (fun r => r.table_key) [] (List.insertionSort ardefLex valid)) []
  exact h1lt.sublist hsub2

/-! ## Correctness of the rule engine -/

/-- No criterion of the rule is routed to the amount-currency merge:
every evaluated (`!= ""`) cell sitting on a `source_amount`-group column
normalises to a blank no-op.  Under this condition every condition is a
label-preserving row filter. -/
def NoAmountConds (r : Rule) : Prop :=
  ∀ nc ∈ ruleConds r, nc.1 ∈ columnGroupAmountCurrency →
    isBlankCell (normCell nc.2) = true

instance (r : Rule) : Decidable (NoAmountConds r) :=
  decidable_of_iff
    (∀ nc ∈ ruleConds r, nc.1 ∈ columnGroupAmountCurrency →
      isBlankCell (normCell nc.2) = true) Iff.rfl

theorem applyCondition_eq_filter (rates : List Rate) (name cell : String)
    (batch : List (Nat × Txn))
    (h : name ∈ columnGroupAmountCurrency →
      isBlankCell (normCell cell) = true) :
    applyCondition rates name cell batch =
      (parseCondRow rates name cell).map (fun p =>
        batch.filter (fun lt => p lt.2)) := by
  unfold applyCondition
  rw [if_neg]
  rintro ⟨h1, h2⟩
  exact h2 (h h1)

theorem applyConditionsB_mem (rates : List Rate) :
    ∀ (conds : List (String × String)),
      (∀ nc ∈ conds, nc.1 ∈ columnGroupAmountCurrency →
        isBlankCell (normCell nc.2) = true) →
      ∀ (batch out : List (Nat × Txn)),
        applyConditionsB rates conds batch = some out →
        ∀ e, e ∈ out ↔ (e ∈ batch ∧ rowMatches rates conds e.2 = some true) := by
  intro conds
  induction conds with
  | nil =>
    intro _ batch out h e
    simp only [applyConditionsB, Option.some.injEq] at h
    subst h
    simp [rowMatches]
  | cons nc rest ih =>
    intro hna batch out h e
    obtain ⟨n, c⟩ := nc
    have hna' : ∀ nc ∈ rest, nc.1 ∈ columnGroupAmountCurrency →
        isBlankCell (normCell nc.2) = true :=
      fun nc hnc => hna nc (List.mem_cons_of_mem _ hnc)
    simp only [applyConditionsB] at h
    rw [applyCondition_eq_filter rates n c batch
      (fun hm => hna (n, c) (List.mem_cons_self _ _) hm)] at h
    cases hp : parseCondRow rates n c with
    | none => simp only [hp, Option.map_none'] at h; exact Option.noConfusion h
    | some p =>
      simp only [hp, Option.map_some'] at h
      simp only [rowMatches, hp]
      by_cases hb : ((batch.filter (fun lt => p lt.2)).isEmpty)
      · rw [if_pos hb] at h
        obtain rfl : batch.filter (fun lt => p lt.2) = out := by injection h
        have hemp : batch.filter (fun lt => p lt.2) = [] :=
          List.isEmpty_iff.mp hb
        rw [hemp]
        simp only [List.not_mem_nil, false_iff, not_and]
        intro htb
        by_cases hpt : p e.2
        · have : e ∈ batch.filter (fun lt => p lt.2) :=
            List.mem_filter.mpr ⟨htb, hpt⟩
          rw [hemp] at this
          simp at this
        · simp [hpt]
      · rw [if_neg hb] at h
        have hiff := ih hna' (batch.filter (fun lt => p lt.2)) out h e
        rw [hiff]
        constructor
        · rintro ⟨hmem, hmatch⟩
          have hm := List.mem_filter.mp hmem
          refine ⟨hm.1, ?_⟩
          rw [if_pos hm.2]
          exact hmatch
        · rintro ⟨hmem, hmatch⟩
          by_cases hpt : p e.2
          · rw [if_pos hpt] at hmatch
            exact ⟨List.mem_filter.mpr ⟨hmem, hpt⟩, hmatch⟩
          · rw [if_neg hpt] at hmatch
            simp at hmatch

theorem batchFrom_get? (r : Rule) :
    ∀ (st : List (Txn × Binding)) (i₀ j : Nat) (p : Txn × Binding),
      st.get? j = some p → inBatch r p = true →
      (i₀ + j, p.1) ∈ batchFrom r i₀ st := by
  intro st
  induction st with
  | nil => intro i₀ j p hp _; simp at hp
  | cons q rest ih =>
    intro i₀ j p hp hib
    cases j with
    | zero =>
      rw [List.get?_cons_zero] at hp
      obtain rfl : q = p := by injection hp
      simp only [batchFrom, if_pos hib, Nat.add_zero]
      exact List.mem_cons_self _ _
    | succ j' =>
      rw [List.get?_cons_succ] at hp
      have hmem := ih (i₀ + 1) j' p hp hib
      have harith : i₀ + 1 + j' = i₀ + (j' + 1) := by omega
      rw [harith] at hmem
      simp only [batchFrom]
      by_cases hq : inBatch r q
      · rw [if_pos hq]
        exact List.mem_cons_of_mem _ hmem
      · rw [if_neg hq]
        exact hmem

theorem batchFrom_mem (r : Rule) :
    ∀ (st : List (Txn × Binding)) (i₀ l : Nat) (t : Txn),
      (l, t) ∈ batchFrom r i₀ st →
      ∃ b, st.get? (l - i₀) = some (t, b) ∧ inBatch r (t, b) = true ∧
        i₀ ≤ l := by
  intro st
  induction st with
  | nil => intro i₀ l t h; simp [batchFrom] at h
  | cons q rest ih =>
    intro i₀ l t h
    simp only [batchFrom] at h
    by_cases hq : inBatch r q
    · rw [if_pos hq] at h
      rcases List.mem_cons.mp h with heq | h
      · injection heq with h1 h2
        subst h1; subst h2
        refine ⟨q.2, ?_, ?_, le_refl _⟩
        · rw [Nat.sub_self, List.get?_cons_zero]
        · simpa using hq
      · obtain ⟨b, hb, hib, hle⟩ := ih (i₀ + 1) l t h
        refine ⟨b, ?_, hib, by omega⟩
        have harith : l - i₀ = (l - (i₀ + 1)) + 1 := by omega
        rw [harith, List.get?_cons_succ]
        exact hb
    · rw [if_neg hq] at h
      obtain ⟨b, hb, hib, hle⟩ := ih (i₀ + 1) l t h
      refine ⟨b, ?_, hib, by omega⟩
      have harith : l - i₀ = (l - (i₀ + 1)) + 1 := by omega
      rw [harith, List.get?_cons_succ]
      exact hb

theorem updateByLabels_get? (r : Rule) (labels : List Nat) :
    ∀ (st : List (Txn × Binding)) (i₀ j : Nat),
      (updateByLabels r labels i₀ st).get? j =
        (st.get? j).map (fun p =>
          if labels.contains (i₀ + j) then (p.1, bindingOf r) else p) := by
  intro st
  induction st with
  | nil => intro i₀ j; simp [updateByLabels]
  | cons q rest ih =>
    intro i₀ j
    cases j with
    | zero =>
      simp [updateByLabels]
    | succ j' =>
      simp only [updateByLabels, List.get?_cons_succ]
      rw [ih (i₀ + 1) j']
      have harith : i₀ + 1 + j' = i₀ + (j' + 1) := by omega
      rw [harith]

theorem updateByLabels_fst (r : Rule) (labels : List Nat) :
    ∀ (st : List (Txn × Binding)) (i₀ : Nat),
      (updateByLabels r labels i₀ st).map Prod.fst = st.map Prod.fst := by
  intro st
  induction st with
  | nil => intro i₀; rfl
  | cons q rest ih =>
    intro i₀
    simp only [updateByLabels, List.map_cons, ih]
    congr 1
    split <;> rfl

theorem goRules_fst (rates : List Rate) :
    ∀ (rs : List Rule) (st out : List (Txn × Binding)),
      goRules rates rs st = some out →
      out.map Prod.fst = st.map Prod.fst := by
  intro rs
  induction rs with
  | nil =>
    intro st out h
    simp only [goRules, Option.some.injEq] at h
    subst h; rfl
  | cons r rest ih =>
    intro st out h
    simp only [goRules] at h
    cases hs : stepRule rates r st with
    | none => simp only [hs] at h; exact Option.noConfusion h
    | some st₁ =>
      simp only [hs] at h
      have hrec := ih st₁ out h
      rw [hrec]
      unfold stepRule at hs
      by_cases hb : ((batchFrom r 0 st).isEmpty)
      · rw [if_pos hb] at hs
        obtain rfl : st = st₁ := by injection hs
        rfl
      · rw [if_neg hb] at hs
        cases ha : applyConditionsB rates (ruleConds r) (batchFrom r 0 st) with
        | none => simp only [ha] at hs; exact Option.noConfusion hs
        | some survivors =>
          simp only [ha] at hs
          by_cases hse : survivors.isEmpty
          · rw [if_pos hse] at hs
            obtain rfl : st = st₁ := by injection hs
            rfl
          · rw [if_neg hse] at hs
            obtain rfl : _ = st₁ := by injection hs
            exact updateByLabels_fst r (survivors.map Prod.fst) st 0

theorem goRules_preserves_bound (rates : List Rate) :
    ∀ (rs : List Rule) (st out : List (Txn × Binding)),
      goRules rates rs st = some out →
      (∀ r ∈ rs, NoAmountConds r) →
      ∀ i p, st.get? i = some p → p.2.intelica_id ≠ -1 →
        out.get? i = some p := by
  intro rs
  induction rs with
  | nil =>
    intro st out h _ i p hp _
    simp only [goRules, Option.some.injEq] at h
    subst h; exact hp
  | cons r rest ih =>
    intro st out h hna i p hp hbound
    have hna' : ∀ r ∈ rest, NoAmountConds r :=
      fun r hr => hna r (List.mem_cons_of_mem _ hr)
    simp only [goRules] at h
    cases hs : stepRule rates r st with
    | none => simp only [hs] at h; exact Option.noConfusion h
    | some st₁ =>
      simp only [hs] at h
      refine ih st₁ out h hna' i p ?_ hbound
      unfold stepRule at hs
      by_cases hb : ((batchFrom r 0 st).isEmpty)
      · rw [if_pos hb] at hs
        obtain rfl : st = st₁ := by injection hs
        exact hp
      · rw [if_neg hb] at hs
        cases ha : applyConditionsB rates (ruleConds r) (batchFrom r 0 st) with
        | none => simp only [ha] at hs; exact Option.noConfusion hs
        | some survivors =>
          simp only [ha] at hs
          by_cases hse : survivors.isEmpty
          · rw [if_pos hse] at hs
            obtain rfl : st = st₁ := by injection hs
            exact hp
          · rw [if_neg hse] at hs
            obtain rfl : updateByLabels r (survivors.map Prod.fst) 0 st = st₁ :=
              by injection hs
            rw [updateByLabels_get? r (survivors.map Prod.fst) st 0 i, hp]
            have hnc : (survivors.map Prod.fst).contains (0 + i) = false := by
              rw [Bool.eq_false_iff]
              intro hc
              have hmm : (0 + i) ∈ survivors.map Prod.fst := by
                simpa using hc
              obtain ⟨e, he, hefst⟩ := List.mem_map.mp hmm
              have hiff := applyConditionsB_mem rates (ruleConds r)
                (hna r (List.mem_cons_self _ _)) (batchFrom r 0 st)
                survivors ha e
              obtain ⟨hebatch, _⟩ := hiff.mp he
              obtain ⟨b', hb', hib', _⟩ := batchFrom_mem r st 0 e.1 e.2
                (by simpa using hebatch)
              rw [hefst, Nat.zero_add, Nat.sub_zero, hp] at hb'
              have hpeq : p = (e.2, b') := Option.some.inj hb'
              have hb2 : p.2 = b' := by rw [hpeq]
              have hidb : b'.intelica_id = -1 := by
                have h1 := (Bool.and_eq_true_iff.mp hib').1
                simpa using h1
              exact hbound (by rw [hb2]; exact hidb)
            simp only [hnc, Option.map_some', Bool.false_eq_true, if_false]

theorem goRules_binding_spec (rates : List Rate) :
    ∀ (rs : List Rule) (st out : List (Txn × Binding)),
      goRules rates rs st = some out →
      List.Pairwise ruleLexLe rs →
      (∀ r ∈ rs, r.intelica_id ≠ -1) →
      (∀ r ∈ rs, NoAmountConds r) →
      ∀ i t b₀, st.get? i = some (t, b₀) → b₀.intelica_id = -1 →
      ∃ b, out.get? i = some (t, b) ∧
        ((b = b₀ ∧ ∀ r ∈ rs, r.region_country_code = t.jurisdiction_assigned →
            matchesRule rates r t ≠ some true) ∨
         (∃ r ∈ rs, r.region_country_code = t.jurisdiction_assigned ∧
            matchesRule rates r t = some true ∧ b = bindingOf r ∧
            ∀ r' ∈ rs, r'.region_country_code = t.jurisdiction_assigned →
              matchesRule rates r' t = some true →
              r.intelica_id ≤ r'.intelica_id)) := by
  intro rs
  induction rs with
  | nil =>
    intro st out h _ _ _ i t b₀ hi hb0
    simp only [goRules, Option.some.injEq] at h
    subst h
    exact ⟨b₀, hi, Or.inl ⟨rfl, by simp⟩⟩
  | cons r₀ rest ih =>
    intro st out h hpw hids hna i t b₀ hi hb0
    simp only [goRules] at h
    cases hs : stepRule rates r₀ st with
    | none => simp only [hs] at h; exact Option.noConfusion h
    | some st₁ =>
      simp only [hs] at h
      have hpw' := List.pairwise_cons.mp hpw
      have hids' : ∀ r ∈ rest, r.intelica_id ≠ -1 :=
        fun r hr => hids r (List.mem_cons_of_mem _ hr)
      have hna' : ∀ r ∈ rest, NoAmountConds r :=
        fun r hr => hna r (List.mem_cons_of_mem _ hr)
      have hbmem : inBatch r₀ (t, b₀) = true →
          (i, t) ∈ batchFrom r₀ 0 st := by
        intro hib
        have := batchFrom_get? r₀ st 0 i (t, b₀) hi hib
        simpa using this
      unfold stepRule at hs
      by_cases hb : ((batchFrom r₀ 0 st).isEmpty)
      · rw [if_pos hb] at hs
        obtain rfl : st = st₁ := by injection hs
        have hreg : r₀.region_country_code ≠ t.jurisdiction_assigned := by
          intro hreg
          have hib : inBatch r₀ (t, b₀) = true := by
            simp [inBatch, hb0, hreg]
          have htb := hbmem hib
          rw [List.isEmpty_iff.mp hb] at htb
          simp at htb
        obtain ⟨b, hout, hdisj⟩ := ih st out h hpw'.2 hids' hna' i t b₀ hi hb0
        refine ⟨b, hout, ?_⟩
        rcases hdisj with ⟨rfl, hnone⟩ | ⟨r, hr, hrreg, hrmatch, rfl, hmin⟩
        · refine Or.inl ⟨rfl, ?_⟩
          intro r hr hregr
          rcases List.mem_cons.mp hr with rfl | hr
          · exact absurd hregr hreg
          · exact hnone r hr hregr
        · refine Or.inr ⟨r, List.mem_cons_of_mem _ hr, hrreg, hrmatch, rfl, ?_⟩
          intro r' hr' hreg' hmatch'
          rcases List.mem_cons.mp hr' with rfl | hr'
          · exact absurd hreg' hreg
          · exact hmin r' hr' hreg' hmatch'
      · rw [if_neg hb] at hs
        cases ha : applyConditionsB rates (ruleConds r₀) (batchFrom r₀ 0 st) with
        | none => simp only [ha] at hs; exact Option.noConfusion hs
        | some survivors =>
          simp only [ha] at hs
          have hmemff := applyConditionsB_mem rates (ruleConds r₀)
            (hna r₀ (List.mem_cons_self _ _)) (batchFrom r₀ 0 st) survivors ha
          have hnotof : ¬ (r₀.region_country_code = t.jurisdiction_assigned ∧
              matchesRule rates r₀ t = some true) → True := fun _ => trivial
          by_cases hse : survivors.isEmpty
          · rw [if_pos hse] at hs
            obtain rfl : st = st₁ := by injection hs
            have hnot : ¬ (r₀.region_country_code = t.jurisdiction_assigned ∧
                matchesRule rates r₀ t = some true) := by
              rintro ⟨hreg, hmatch⟩
              have hib : inBatch r₀ (t, b₀) = true := by
                simp [inBatch, hb0, hreg]
              have hts : (i, t) ∈ survivors :=
                (hmemff (i, t)).mpr ⟨hbmem hib, hmatch⟩
              rw [List.isEmpty_iff.mp hse] at hts
              simp at hts
            obtain ⟨b, hout, hdisj⟩ := ih st out h hpw'.2 hids' hna' i t b₀ hi hb0
            refine ⟨b, hout, ?_⟩
            rcases hdisj with ⟨rfl, hnone⟩ | ⟨r, hr, hrreg, hrmatch, rfl, hmin⟩
            · refine Or.inl ⟨rfl, ?_⟩
              intro r hr hregr
              rcases List.mem_cons.mp hr with rfl | hr
              · exact fun hm => hnot ⟨hregr, hm⟩
              · exact hnone r hr hregr
            · refine Or.inr ⟨r, List.mem_cons_of_mem _ hr, hrreg, hrmatch, rfl, ?_⟩
              intro r' hr' hreg' hmatch'
              rcases List.mem_cons.mp hr' with rfl | hr'
              · exact absurd ⟨hreg', hmatch'⟩ hnot
              · exact hmin r' hr' hreg' hmatch'
          · rw [if_neg hse] at hs
            obtain rfl : updateByLabels r₀ (survivors.map Prod.fst) 0 st = st₁ :=
              by injection hs
            have hget1 : (updateByLabels r₀
                (survivors.map Prod.fst) 0 st).get? i =
                some (if (survivors.map Prod.fst).contains (0 + i)
                  then (t, bindingOf r₀) else (t, b₀)) := by
              rw [updateByLabels_get? r₀ (survivors.map Prod.fst) st 0 i, hi]
              rfl
            by_cases hc : ((survivors.map Prod.fst).contains (0 + i)) = true
            · rw [if_pos hc] at hget1
              obtain ⟨x, he⟩ : ∃ x, (i, x) ∈ survivors := by simpa using hc
              obtain ⟨hebatch, hematch'⟩ := (hmemff (i, x)).mp he
              obtain ⟨b', hb', hib', _⟩ := batchFrom_mem r₀ st 0 i x
                (by simpa using hebatch)
              rw [Nat.sub_zero, hi] at hb'
              have het : x = t :=
                ((congrArg Prod.fst (Option.some.inj hb')).symm : x = t)
              have hmatch : matchesRule rates r₀ t = some true := by
                rw [← het]; exact hematch'
              have hreg : t.jurisdiction_assigned = r₀.region_country_code := by
                have := (Bool.and_eq_true_iff.mp hib').2
                rw [het] at this
                simpa using this
              have hbound : (bindingOf r₀).intelica_id ≠ -1 :=
                hids r₀ (List.mem_cons_self _ _)
              have hout := goRules_preserves_bound rates rest _ out h hna' i
                (t, bindingOf r₀) hget1 hbound
              refine ⟨bindingOf r₀, hout,
                Or.inr ⟨r₀, List.mem_cons_self _ _, hreg.symm, hmatch, rfl, ?_⟩⟩
              intro r' hr' hreg' hmatch'
              rcases List.mem_cons.mp hr' with rfl | hr'
              · exact le_refl _
              · have hlex := hpw'.1 r' hr'
                have heqreg : r₀.region_country_code = r'.region_country_code :=
                  hreg.symm.trans hreg'.symm
                rcases hlex with hlt | ⟨_, hle⟩
                · rw [heqreg] at hlt
                  exact absurd hlt (lt_irrefl _)
                · exact hle
            · rw [if_neg hc] at hget1
              obtain ⟨b, hout, hdisj⟩ := ih _ out h hpw'.2 hids' hna' i t b₀
                hget1 hb0
              have hnot : ¬ (r₀.region_country_code = t.jurisdiction_assigned ∧
                  matchesRule rates r₀ t = some true) := by
                rintro ⟨hreg, hmatch⟩
                have hib : inBatch r₀ (t, b₀) = true := by
                  simp [inBatch, hb0, hreg]
                have hts : (i, t) ∈ survivors :=
                  (hmemff (i, t)).mpr ⟨hbmem hib, hmatch⟩
                apply hc
                have : i ∈ survivors.map Prod.fst :=
                  List.mem_map.mpr ⟨(i, t), hts, rfl⟩
                simpa using this
              refine ⟨b, hout, ?_⟩
              rcases hdisj with ⟨rfl, hnone⟩ | ⟨r, hr, hrreg, hrmatch, rfl, hmin⟩
              · refine Or.inl ⟨rfl, ?_⟩
                intro r hr hregr
                rcases List.mem_cons.mp hr with rfl | hr
                · exact fun hm => hnot ⟨hregr, hm⟩
                · exact hnone r hr hregr
              · refine Or.inr ⟨r, List.mem_cons_of_mem _ hr, hrreg, hrmatch,
                  rfl, ?_⟩
                intro r' hr' hreg' hmatch'
                rcases List.mem_cons.mp hr' with rfl | hr'
                · exact absurd ⟨hreg', hmatch'⟩ hnot
                · exact hmin r' hr' hreg' hmatch'

/-- The serial-priority binding invariant, provable for runs in which no
evaluated rule carries a non-blank amount-currency (`source_amount`)
criterion — on that path `pd.merge` resets the batch index, and the
invariant fails (see `interchange_amount_merge_misbinding`).  Under the
restriction: every output transaction either keeps
`interchange_intelica_id = -1` and no valid rule of its jurisdiction
matches it, or carries the eight columns of a valid matching rule of its
jurisdiction with minimal `intelica_id`; and a bound transaction is never
touched by later rules. -/
theorem interchange_rule_binding
    (rates : List Rate) (rules : List Rule) (ts : List Txn)
    (fileDate today : Int) (out : List (Txn × Binding))
    (hids : ∀ r ∈ rules, r.intelica_id ≠ -1)
    (hnoamt : ∀ r ∈ getVisaRuleDefinitions fileDate today rules,
      NoAmountConds r)
    (hout : evalInterchangeFees rates
        (getVisaRuleDefinitions fileDate today rules) ts = some out) :
    (∀ i t b, out.get? i = some (t, b) →
      ts.get? i = some t ∧
      ((b.intelica_id = -1 ∧
          ∀ r ∈ getVisaRuleDefinitions fileDate today rules,
            r.region_country_code = t.jurisdiction_assigned →
            matchesRule rates r t ≠ some true) ∨
       (∃ r ∈ getVisaRuleDefinitions fileDate today rules,
          r.region_country_code = t.jurisdiction_assigned ∧
          matchesRule rates r t = some true ∧ b = bindingOf r ∧
          ∀ r' ∈ getVisaRuleDefinitions fileDate today rules,
            r'.region_country_code = t.jurisdiction_assigned →
            matchesRule rates r' t = some true →
            r.intelica_id ≤ r'.intelica_id))) ∧
    (∀ (rs : List Rule) (st st' : List (Txn × Binding)),
      goRules rates rs st = some st' → (∀ r ∈ rs, NoAmountConds r) →
      ∀ i p, st.get? i = some p → p.2.intelica_id ≠ -1 →
        st'.get? i = some p) := by
  constructor
  · intro i t b hib
    simp only [evalInterchangeFees] at hout
    have hfst := goRules_fst rates _ _ out hout
    have hts : ts.get? i = some t := by
      have h1 : (out.map Prod.fst).get? i = some t := by
        rw [List.get?_map, hib]; rfl
      rw [hfst, List.map_map] at h1
      simpa using h1
    have htmem : t ∈ ts := List.get?_mem hts
    have hidsrs : ∀ r ∈ getVisaRuleDefinitions fileDate today rules,
        r.intelica_id ≠ -1 := by
      intro r hr
      unfold getVisaRuleDefinitions at hr
      have hr' : r ∈ _ := (List.perm_insertionSort ruleLexLe _).mem_iff.mp hr
      have hr'' := List.mem_filter.mp hr'
      obtain ⟨r₀, hr₀, rfl⟩ := List.mem_map.mp hr''.1
      exact hids r₀ hr₀
    have hpwrs : List.Pairwise ruleLexLe
        (getVisaRuleDefinitions fileDate today rules) := by
      unfold getVisaRuleDefinitions
      exact List.sorted_insertionSort ruleLexLe _
    have hpwf := hpwrs.filter (fun r =>
      ts.any (fun t => t.jurisdiction_assigned == r.region_country_code))
    have hidsf : ∀ r ∈ (getVisaRuleDefinitions fileDate today rules).filter
        (fun r => ts.any (fun t =>
          t.jurisdiction_assigned == r.region_country_code)),
        r.intelica_id ≠ -1 :=
      fun r hr => hidsrs r (List.mem_filter.mp hr).1
    have hnaf : ∀ r ∈ (getVisaRuleDefinitions fileDate today rules).filter
        (fun r => ts.any (fun t =>
          t.jurisdiction_assigned == r.region_country_code)),
        NoAmountConds r :=
      fun r hr => hnoamt r (List.mem_filter.mp hr).1
    have hinit : (ts.map (fun t => (t, initBinding))).get? i =
        some (t, initBinding) := by
      rw [List.get?_map, hts]; rfl
    obtain ⟨b', hout', hdisj⟩ := goRules_binding_spec rates _ _ out hout
      hpwf hidsf hnaf i t initBinding hinit rfl
    have hb' : b' = b := by
      rw [hout'] at hib
      exact congrArg Prod.snd (Option.some.inj hib)
    subst hb'
    refine ⟨hts, ?_⟩
    have htrans : ∀ r, r ∈ getVisaRuleDefinitions fileDate today rules →
        r.region_country_code = t.jurisdiction_assigned →
        r ∈ (getVisaRuleDefinitions fileDate today rules).filter
          (fun r => ts.any (fun t =>
            t.jurisdiction_assigned == r.region_country_code)) := by
      intro r hr hreg
      refine List.mem_filter.mpr ⟨hr, ?_⟩
      simp only [List.any_eq_true]
      exact ⟨t, htmem, by simp [hreg]⟩
    rcases hdisj with ⟨rfl, hnone⟩ | ⟨r, hr, hrreg, hrmatch, rfl, hmin⟩
    · left
      refine ⟨rfl, ?_⟩
      intro r hrr hreg
      exact hnone r (htrans r hrr hreg) hreg
    · right
      refine ⟨r, (List.mem_filter.mp hr).1, hrreg, hrmatch, rfl, ?_⟩
      intro r' hr' hreg' hmatch'
      exact hmin r' (htrans r' hr' hreg') hreg' hmatch'
  · intro rs' st st' hgo hna i p hp hbp
    exact goRules_preserves_bound rates rs' st st' hgo hna i p hp hbp

/-- A concrete fee rule used to exercise the rule engine end to end. -/
def wRule : Rule :=
  { region_country_code := "840", valid_from := some 0, valid_until := some 10,
    intelica_id := 10, fee_descriptor := "D", fee_currency := "USD",
    fee_variable := 1, fee_fixed := 0, fee_min := 0, fee_cap := 0,
    criteria := [("usage_code", "01,03-05,NOT:04")] }

/-- A concrete transaction matching `wRule`. -/
def wTxn : Txn :=
  { jurisdiction_assigned := "840", strCols := [("usage_code", "01")],
    numCols := [] }

/-- Witness for `interchange_rule_binding`: one valid rule with a
default-group criterion binds the only matching transaction. -/
theorem interchange_rule_binding_witness :
    ([wTxn] : List Txn).get? 0 = some wTxn ∧
    (((bindingOf wRule).intelica_id = -1 ∧
        ∀ r ∈ getVisaRuleDefinitions 5 7 [wRule],
          r.region_country_code = wTxn.jurisdiction_assigned →
          matchesRule [] r wTxn ≠ some true) ∨
     (∃ r ∈ getVisaRuleDefinitions 5 7 [wRule],
        r.region_country_code = wTxn.jurisdiction_assigned ∧
        matchesRule [] r wTxn = some true ∧ bindingOf wRule = bindingOf r ∧
        ∀ r' ∈ getVisaRuleDefinitions 5 7 [wRule],
          r'.region_country_code = wTxn.jurisdiction_assigned →
          matchesRule [] r' wTxn = some true →
          r.intelica_id ≤ r'.intelica_id)) :=
  (interchange_rule_binding [] [wRule] [wTxn] 5 7 [(wTxn, bindingOf wRule)]
    (by decide) (by decide) (by decide)).1 0 wTxn (bindingOf wRule) (by decide)

end Itx
